import Mathlib

/-!
Shallow embedding of `src/text_to_speech.py` (text-to-speech converter).
Strings are modelled as `List Char`; the Python `re` idioms used by the
source (`re.sub(r'\s+', ' ', _)`, `re.sub(r'\n+', '. ', _)`,
`re.split(r'[.!?]+\s+', _)`) are modelled by direct scanners with the same
semantics on the ASCII whitespace class.  Files and the wave library are
modelled by a path-indexed store of parsed WAV contents.
-/

namespace TTSModel

/-- Python `\s` / `str.strip()` whitespace class (ASCII part). -/
def isPySpace (c : Char) : Bool :=
  c = ' ' || c = '\t' || c = '\n' || c = '\r' || c = '\x0b' || c = '\x0c'

/-- Model of Python `str.lstrip()`: drop leading whitespace. -/
def stripLeft (l : List Char) : List Char := l.dropWhile isPySpace

/-- Model of Python `str.rstrip()`: drop trailing whitespace. -/
def stripRight (l : List Char) : List Char := (l.reverse.dropWhile isPySpace).reverse

/-- Model of Python `str.strip()`. -/
def pyStrip (l : List Char) : List Char := stripRight (stripLeft l)

/-- Whether a list of characters starts with a whitespace character. -/
def headIsSpace : List Char → Bool
  | [] => false
  | d :: _ => isPySpace d

/-- Whether a list of characters starts with a newline. -/
def headIsNl : List Char → Bool
  | [] => false
  | d :: _ => d = '\n'

/-- Model of `re.sub(r'\s+', ' ', text)`: each maximal run of whitespace
becomes a single space (the single space is emitted at the last character of
the run). -/
def sub_ws : List Char → List Char
  | [] => []
  | c :: rest =>
    if isPySpace c then
      if headIsSpace rest then sub_ws rest else ' ' :: sub_ws rest
    else c :: sub_ws rest

/-- Model of `re.sub(r'\n+', '. ', text)`: each maximal run of newlines
becomes a period followed by a space. -/
def sub_nl : List Char → List Char
  | [] => []
  | c :: rest =>
    if c = '\n' then
      if headIsNl rest then sub_nl rest else '.' :: ' ' :: sub_nl rest
    else c :: sub_nl rest

/-- Model of Python `str.replace(old, new)` for a single-character `old`. -/
def pyReplaceChar (old : Char) (new : List Char) (l : List Char) : List Char :=
  l.flatMap (fun c => if c = old then new else [c])

/-- The `replacements` dict of `clean_text`, in insertion (iteration) order. -/
def replacements : List (Char × List Char) :=
  [('&', " és ".data), ('@', " kukac ".data), ('#', " hashtag ".data),
   ('%', " százalék ".data), ('+', " plusz ".data), ('=', " egyenlő ".data),
   ('<', " kisebb mint ".data), ('>', " nagyobb mint ".data)]

/-- The sequential `for old, new in replacements.items(): text = text.replace(old, new)` loop. -/
def applyReplacements (l : List Char) : List Char :=
  replacements.foldl (fun acc p => pyReplaceChar p.1 p.2 acc) l

/-- Model of `clean_text` (src/text_to_speech.py:77-99): collapse whitespace
runs, then replace newline runs, then the symbol substitutions, then strip.
Note the source applies the whitespace collapse BEFORE the newline
substitution. -/
def clean_text (text : List Char) : List Char :=
  pyStrip (applyReplacements (sub_nl (sub_ws text)))

/-- Modelled from the spec (section 4.2): the normalizer as the spec words it,
with newline runs converted to ". " FIRST and the general whitespace collapse
applied afterwards.  Used only to compare against `clean_text`. -/
def clean_text_spec (text : List Char) : List Char :=
  pyStrip (applyReplacements (sub_ws (sub_nl text)))

/-- Sentence terminators of the chunker's regex `[.!?]+\s+`. -/
def isTerm (c : Char) : Bool := c = '.' || c = '!' || c = '?'

/-- Scanner with the semantics of `re.split(r'[.!?]+\s+', text)`: a maximal
run of terminators immediately followed by at least one whitespace character
is a separator (the separator is dropped, greedy on both sides).  `acc` holds
the current piece reversed, `run` holds a pending terminator run reversed,
and `skip` is true while the whitespace tail of a separator is being
consumed. -/
def splitSentencesAux : Bool → List Char → List Char → List Char → List (List Char)
  | _, [], acc, run => [(run ++ acc).reverse]
  | skip, c :: rest, acc, run =>
    if skip && isPySpace c then splitSentencesAux true rest acc run
    else if isTerm c then splitSentencesAux false rest acc (c :: run)
    else if run ≠ [] && isPySpace c then
      acc.reverse :: splitSentencesAux true rest [] []
    else splitSentencesAux false rest (c :: (run ++ acc)) []

/-- Model of `re.split(r'[.!?]+\s+', text)` (src/text_to_speech.py:106). -/
def pySplitSentences (text : List Char) : List (List Char) :=
  splitSentencesAux false text [] []

/-- The `while len(sentence) > max_chunk_size` hard-split loop
(src/text_to_speech.py:122-124) with fuel (the loop runs at most `s.length`
times since each iteration removes `N ≥ 1` characters): returns the emitted
fixed-size slices and the final remainder left in `sentence`. -/
def hardSplitGo (N : Nat) : Nat → List Char → List (List Char) × List Char
  | 0, s => ([], s)
  | fuel + 1, s =>
    if N < s.length then
      let r := hardSplitGo N fuel (s.drop N)
      (s.take N :: r.1, r.2)
    else ([], s)

/-- The hard-split loop of `split_text_into_chunks`.  (For `N = 0` the Python
loop would not terminate on an oversized sentence; the model returns no
slices then.) -/
def hardSplit (N : Nat) (s : List Char) : List (List Char) × List Char :=
  if 0 < N then hardSplitGo N s.length s else ([], s)

/-- One iteration of the `for sentence in sentences` loop of
`split_text_into_chunks` (src/text_to_speech.py:110-127), acting on the state
`(chunks, current_chunk)`. -/
def chunkStep (N : Nat) (st : List (List Char) × List Char) (sentence0 : List Char) :
    List (List Char) × List Char :=
  let sentence := pyStrip sentence0
  if sentence = [] then st
  else if st.2.length + sentence.length + 2 > N then
    if st.2 ≠ [] then (st.1 ++ [pyStrip st.2], sentence)
    else
      let hs := hardSplit N sentence
      (st.1 ++ hs.1, hs.2)
  else
    (st.1, if st.2 = [] then sentence else st.2 ++ '.' :: ' ' :: sentence)

/-- Model of `split_text_into_chunks` (src/text_to_speech.py:101-132). -/
def split_text_into_chunks (text : List Char) (N : Nat) : List (List Char) :=
  let st := (pySplitSentences text).foldl (chunkStep N) ([], [])
  if st.2 ≠ [] then st.1 ++ [pyStrip st.2] else st.1

/-- Join a list of pieces with the 2-character joiner ". " used by the
accumulation branch `current_chunk += ". " + sentence`. -/
def joinDot : List (List Char) → List Char
  | [] => []
  | [x] => x
  | x :: y :: rest => x ++ '.' :: ' ' :: joinDot (y :: rest)

/-- The sentences that survive `sentence.strip()` / `if not sentence: continue`,
in text order. -/
def keptOf (l : List (List Char)) : List (List Char) :=
  (l.map pyStrip).filter (fun s => !s.isEmpty)

/-- `pieces` reassembles `sents` when it can be partitioned into consecutive
nonempty groups whose concatenations are exactly the sentences, in order. -/
def Reassembles (pieces : List (List Char)) (sents : List (List Char)) : Prop :=
  ∃ sl : List (List (List Char)),
    sl.flatten = pieces ∧ sl.map List.flatten = sents ∧ ∀ x ∈ sl, x ≠ []

/-! ### File store and the wave pipeline

Files on disk are indexed by `Path := Nat`.  A WAV file on disk is modelled
as its parsed content: the format parameters set so far (`none` models a file
that the `wave` module cannot read back, e.g. one whose header was never
completed) and the raw frame bytes. -/

abbrev Path := Nat

/-- The format metadata of `getparams`/`setparams`: sample rate, channel
count, sample width. -/
structure WavParams where
  nchannels : Nat
  sampwidth : Nat
  framerate : Nat
  deriving DecidableEq, Repr

/-- A WAV file's content as the `wave` module sees it. -/
structure WavData where
  params : Option WavParams
  frames : List Nat
  deriving DecidableEq, Repr

/-- The file store: `none` means no file exists at the path. -/
abbrev FS := Path → Option WavData

/-- Write (or delete, with `none`) the file at path `p`. -/
def setF (fs : FS) (p : Path) (v : Option WavData) : FS :=
  fun q => if q = p then v else fs q

/-- The `for i, input_file in enumerate(input_files)` loop of
`concatenate_wav_files` (src/text_to_speech.py:216-223).  Opening an input
that does not exist or cannot be parsed raises (result `some i`); otherwise
the first file's params are copied to the output and every file's frames are
appended to the output file, which is updated on disk as the loop runs. -/
def concatWavLoop (out : Path) : List Path → Nat → FS → FS × Option Nat
  | [], _, fs => (fs, none)
  | f :: rest, i, fs =>
    match fs f with
    | none => (fs, some i)
    | some w =>
      match w.params with
      | none => (fs, some i)
      | some p =>
        let cur := (fs out).getD ⟨none, []⟩
        let upd : WavData :=
          ⟨if i = 0 then some p else cur.params, cur.frames ++ w.frames⟩
        concatWavLoop out rest (i + 1) (setF fs out (some upd))

/-- Model of `concatenate_wav_files` (src/text_to_speech.py:209-223).
`wave.open(output_path, 'wb')` creates/truncates the destination before any
input is read; the result's second component is `none` on success and
`some i` when reading input `i` raised. -/
def concatenate_wav_files (fs : FS) (input_files : List Path) (output_path : Path) :
    FS × Option Nat :=
  concatWavLoop output_path input_files 0 (setF fs output_path (some ⟨none, []⟩))

/-- The temporary file created for chunk number `i` (0-based); temp paths are
disjoint from the driver's destination path 0. -/
def tempPath (i : Nat) : Path := i + 1

/-- The synthesis loop of `convert_text_to_speech`
(src/text_to_speech.py:179-188): for each chunk a temp file is created and
recorded, then `tts.tts_to_file` runs.  `tts c = none` models the synthesis
call raising; `tts c = some w` models it writing `w` to the temp file.
Returns the store, the recorded temp files, and whether the loop completed. -/
def synthLoop (tts : List Char → Option WavData) :
    List (List Char) → Nat → FS → List Path → FS × List Path × Bool
  | [], _, fs, temps => (fs, temps, true)
  | c :: rest, i, fs, temps =>
    let p := tempPath i
    let fs1 := setF fs p (some ⟨none, []⟩)
    let temps1 := temps ++ [p]
    match tts c with
    | none => (fs1, temps1, false)
    | some w => synthLoop tts rest (i + 1) (setF fs1 p (some w)) temps1

/-- Model of `convert_text_to_speech` (src/text_to_speech.py:168-207),
returning also the recorded temp-file list.  A single segment is moved to the
destination (`shutil.move`); several segments are merged by
`concatenate_wav_files`; the `finally` block then unlinks every recorded temp
file whatever happened before. -/
def convertFull (tts : List Char → Option WavData) (text_chunks : List (List Char))
    (output_path : Path) (fs : FS) : FS × List Path × Bool :=
  let s := synthLoop tts text_chunks 0 fs []
  let fs1 := s.1
  let temps := s.2.1
  let ok := s.2.2
  let step2 : FS × Bool :=
    if ok then
      match temps with
      | [t] => (setF (setF fs1 t none) output_path (fs1 t), true)
      | _ =>
        let r := concatenate_wav_files fs1 temps output_path
        (r.1, r.2 = none)
    else (fs1, false)
  let fs3 := temps.foldl (fun f t => setF f t none) step2.1
  (fs3, temps, ok && step2.2)

/-- Model of `convert_text_to_speech` proper: final store and success flag. -/
def convert_text_to_speech (tts : List Char → Option WavData)
    (text_chunks : List (List Char)) (output_path : Path) (fs : FS) : FS × Bool :=
  let r := convertFull tts text_chunks output_path fs
  (r.1, r.2.2)

/-! ### Encoding resolver -/

/-- The candidate encodings of `read_text_file` (src/text_to_speech.py:60). -/
inductive Encoding where
  | utf8
  | utf8sig
  | iso88592
  | cp1250
  deriving DecidableEq, Repr

/-- The fixed priority order `['utf-8', 'utf-8-sig', 'iso-8859-2', 'cp1250']`. -/
def encodings : List Encoding :=
  [Encoding.utf8, Encoding.utf8sig, Encoding.iso88592, Encoding.cp1250]

/-- The `for encoding in encodings` loop of `read_text_file`
(src/text_to_speech.py:62-73): `decode e data = none` models
`open(...).read()` raising for that candidate; on success the text is
stripped and returned when non-empty, otherwise the next candidate is tried.
`none` overall models the final `raise ValueError`. -/
def readLoop (decode : Encoding → List Nat → Option (List Char)) (data : List Nat) :
    List Encoding → Option (List Char)
  | [] => none
  | e :: rest =>
    match decode e data with
    | none => readLoop decode data rest
    | some t =>
      let s := pyStrip t
      if s ≠ [] then some s else readLoop decode data rest

/-- Model of `read_text_file` (src/text_to_speech.py:58-75). -/
def read_text_file (decode : Encoding → List Nat → Option (List Char))
    (data : List Nat) : Option (List Char) :=
  readLoop decode data encodings

/-! ### Concrete inputs used by counterexamples and witnesses -/

/-- Two readable WAV files at paths 1 and 2 whose sample rates differ
(22050 vs 44100). -/
def fsMismatch : FS := fun p =>
  if p = 1 then some ⟨some ⟨1, 2, 22050⟩, [10, 20]⟩
  else if p = 2 then some ⟨some ⟨1, 2, 44100⟩, [30]⟩
  else none

/-- An empty file store. -/
def fsEmpty : FS := fun _ => none

/-- A synthesizer that writes a valid WAV for chunk "a" and an unparsable
file for any other chunk. -/
def ttsBad : List Char → Option WavData := fun c =>
  if c = ['a'] then some ⟨some ⟨1, 2, 22050⟩, [7]⟩ else some ⟨none, []⟩

/-- A synthesizer that succeeds on chunk "a" and raises on any other chunk. -/
def ttsFail : List Char → Option WavData := fun c =>
  if c = ['a'] then some ⟨some ⟨1, 2, 22050⟩, [7]⟩ else none

/-- A decoder where utf-8 yields whitespace only and utf-8-sig yields "a". -/
def decodeW : Encoding → List Nat → Option (List Char) := fun e _ =>
  match e with
  | Encoding.utf8 => some [' ']
  | Encoding.utf8sig => some ['a']
  | _ => none

/-- A string is collapsed when every whitespace character in it is a plain
space and no two consecutive characters are both whitespace: exactly the
image of `sub_ws`. -/
def collapsedB : List Char → Bool
  | [] => true
  | c :: rest => (!(isPySpace c) || (c = ' ' && !(headIsSpace rest))) && collapsedB rest

/-- A produced chunk is the ". "-join of its group of pieces, possibly
stripped (the flush branch appends `current_chunk.strip()`, the hard-split
branch appends a raw slice). -/
def chunkRel (c : List Char) (gi : List (List Char)) : Prop :=
  c = joinDot gi ∨ c = pyStrip (joinDot gi)

/-- Invariant of the chunk-accumulation loop, with ghost data: `g` groups the
pieces of the finished chunks, `cg` holds the pieces of `current_chunk`, and
`sl` partitions all pieces emitted so far into the processed kept sentences
`K` (so pieces appear in sentence order). -/
def ChunkInv (K : List (List Char)) (st : List (List Char) × List Char) : Prop :=
  (∀ c ∈ st.1, c ≠ []) ∧
  (st.2 = [] ∨ ∃ c ∈ st.2, isPySpace c = false) ∧
  (K ≠ [] → (st.1 ≠ [] ∨ st.2 ≠ [])) ∧
  ∃ (g : List (List (List Char))) (cg : List (List Char)) (sl : List (List (List Char))),
    List.Forall₂ chunkRel st.1 g ∧
    st.2 = joinDot cg ∧
    (∀ gi ∈ g, gi ≠ [] ∧ ∀ p ∈ gi, p ≠ []) ∧
    (∀ p ∈ cg, p ≠ []) ∧
    (st.2 = [] ↔ cg = []) ∧
    sl.flatten = g.flatten ++ cg ∧
    sl.map List.flatten = K ∧
    (∀ x ∈ sl, x ≠ [])

/-! ### File-store lemmas -/

theorem setF_same (fs : FS) (p : Path) (v : Option WavData) : setF fs p v p = v := by
  simp [setF]

theorem setF_other (fs : FS) (p q : Path) (v : Option WavData) (h : q ≠ p) :
    setF fs p v q = fs q := by
  simp [setF, h]

theorem cleanup_not_mem : ∀ (l : List Path) (fs : FS) (p : Path), p ∉ l →
    (l.foldl (fun f t => setF f t none) fs) p = fs p := by
  intro l
  induction l with
  | nil => intro fs p _; rfl
  | cons a l ih =>
    intro fs p hp
    simp only [List.mem_cons, not_or] at hp
    simp only [List.foldl_cons]
    rw [ih _ _ hp.2, setF_other _ _ _ _ hp.1]

theorem cleanup_mem : ∀ (l : List Path) (fs : FS) (p : Path), p ∈ l →
    (l.foldl (fun f t => setF f t none) fs) p = none := by
  intro l
  induction l with
  | nil => intro fs p hp; exact absurd hp (List.not_mem_nil p)
  | cons a l ih =>
    intro fs p hp
    simp only [List.foldl_cons]
    by_cases hm : p ∈ l
    · exact ih _ _ hm
    · rcases List.mem_cons.mp hp with h | h
      · rw [cleanup_not_mem _ _ _ hm, h, setF_same]
      · exact absurd h hm

/-! ### Claim C9: temp-file cleanup -/

/-- Claim C9: every temporary audio file recorded during synthesis is deleted
on every exit path of `convert_text_to_speech` (success, synthesis failure,
or merge failure): after the run, no recorded temp path holds a file. -/
theorem convert_temp_files_cleanup (tts : List Char → Option WavData)
    (text_chunks : List (List Char)) (output_path : Path) (fs : FS) (p : Path)
    (hp : p ∈ (convertFull tts text_chunks output_path fs).2.1) :
    (convertFull tts text_chunks output_path fs).1 p = none := by
  simp only [convertFull] at hp ⊢
  exact cleanup_mem _ _ _ hp

theorem convert_temp_files_cleanup_witness :
    1 ∈ (convertFull ttsBad [['a'], ['b']] 0 fsEmpty).2.1 ∧
    (convertFull ttsBad [['a'], ['b']] 0 fsEmpty).1 1 = none :=
  ⟨by decide, convert_temp_files_cleanup ttsBad [['a'], ['b']] 0 fsEmpty 1 (by decide)⟩

/-! ### Claim C8: single-segment path -/

/-- Claim C8: with exactly one synthesized segment, the driver moves the temp
file to the destination, so the destination holds exactly the synthesized
bytes, unchanged, and the run succeeds. -/
theorem convert_single_chunk_verbatim (tts : List Char → Option WavData)
    (c : List Char) (w : WavData) (output_path : Path) (fs : FS)
    (hw : tts c = some w) (hout : output_path ≠ tempPath 0) :
    (convert_text_to_speech tts [c] output_path fs).1 output_path = some w ∧
    (convert_text_to_speech tts [c] output_path fs).2 = true := by
  simp only [convert_text_to_speech, convertFull, synthLoop, hw, List.nil_append,
    if_true]
  constructor
  · rw [cleanup_not_mem _ _ _ (by simp [hout])]
    rw [setF_same, setF_same]
  · rfl

theorem convert_single_chunk_verbatim_witness :
    (convert_text_to_speech ttsFail [['a']] 0 fsEmpty).1 0 =
      some ⟨some ⟨1, 2, 22050⟩, [7]⟩ ∧
    (convert_text_to_speech ttsFail [['a']] 0 fsEmpty).2 = true :=
  convert_single_chunk_verbatim ttsFail ['a'] ⟨some ⟨1, 2, 22050⟩, [7]⟩ 0 fsEmpty
    (by decide) (by decide)

/-! ### Synthesis-loop lemmas (for claim C5) -/

theorem synthLoop_fst_zero (tts : List Char → Option WavData) :
    ∀ (chunks : List (List Char)) (i : Nat) (fs : FS) (temps : List Path),
    (synthLoop tts chunks i fs temps).1 0 = fs 0 := by
  intro chunks
  induction chunks with
  | nil => intro i fs temps; rfl
  | cons c rest ih =>
    intro i fs temps
    simp only [synthLoop]
    cases h : tts c with
    | none =>
      simp only []
      exact setF_other _ _ _ _ (by simp [tempPath])
    | some w =>
      simp only []
      rw [ih]
      rw [setF_other _ _ _ _ (by simp [tempPath]),
        setF_other _ _ _ _ (by simp [tempPath])]

theorem synthLoop_fails (tts : List Char → Option WavData) :
    ∀ (chunks : List (List Char)) (i : Nat) (fs : FS) (temps : List Path),
    (∃ c ∈ chunks, tts c = none) →
    (synthLoop tts chunks i fs temps).2.2 = false := by
  intro chunks
  induction chunks with
  | nil =>
    intro i fs temps h
    rcases h with ⟨c, hc, _⟩
    exact absurd hc (List.not_mem_nil c)
  | cons c rest ih =>
    intro i fs temps h
    simp only [synthLoop]
    cases hc : tts c with
    | none => rfl
    | some w =>
      apply ih
      rcases h with ⟨d, hd, hdn⟩
      rcases List.mem_cons.mp hd with rfl | hd2
      · rw [hc] at hdn; exact absurd hdn (by simp)
      · exact ⟨d, hd2, hdn⟩

theorem synthLoop_temps_shape (tts : List Char → Option WavData) :
    ∀ (chunks : List (List Char)) (i : Nat) (fs : FS) (temps : List Path),
    ∀ p ∈ (synthLoop tts chunks i fs temps).2.1,
      p ∈ temps ∨ ∃ j, p = tempPath j := by
  intro chunks
  induction chunks with
  | nil => intro i fs temps p hp; exact Or.inl hp
  | cons c rest ih =>
    intro i fs temps p hp
    simp only [synthLoop] at hp
    cases hc : tts c with
    | none =>
      rw [hc] at hp
      simp only [] at hp
      rcases List.mem_append.mp hp with h | h
      · exact Or.inl h
      · exact Or.inr ⟨i, by simpa using h⟩
    | some w =>
      rw [hc] at hp
      simp only [] at hp
      rcases ih _ _ _ p hp with h | h
      · rcases List.mem_append.mp h with h2 | h2
        · exact Or.inl h2
        · exact Or.inr ⟨i, by simpa using h2⟩
      · exact Or.inr h

/-! ### Claim C5 (amended): failures before assembly leave the destination
untouched; the counterexample below shows a mid-merge failure does not. -/

/-- Claim C5 (amended): if synthesis raises on some chunk, the pipeline stops
before the assemble step, the destination path is untouched, and the run
fails.  (A failure during the multi-segment merge itself does write the
destination: see the counterexample.) -/
theorem pipeline_synth_failure_dest_untouched (tts : List Char → Option WavData)
    (text_chunks : List (List Char)) (fs : FS)
    (hfail : ∃ c ∈ text_chunks, tts c = none) :
    (convert_text_to_speech tts text_chunks 0 fs).1 0 = fs 0 ∧
    (convert_text_to_speech tts text_chunks 0 fs).2 = false := by
  have hok := synthLoop_fails tts text_chunks 0 fs [] hfail
  simp only [convert_text_to_speech, convertFull, hok]
  constructor
  · rw [cleanup_not_mem]
    · simp only [Bool.false_eq_true, if_neg (by simp : ¬False)]
      exact synthLoop_fst_zero tts text_chunks 0 fs []
    · intro hmem
      rcases synthLoop_temps_shape tts text_chunks 0 fs [] 0 hmem with h | ⟨j, hj⟩
      · exact List.not_mem_nil 0 h
      · exact absurd hj (by simp [tempPath])
  · simp [hok]

theorem pipeline_synth_failure_dest_untouched_witness :
    (convert_text_to_speech ttsFail [['a'], ['b']] 0 fsEmpty).1 0 = fsEmpty 0 ∧
    (convert_text_to_speech ttsFail [['a'], ['b']] 0 fsEmpty).2 = false :=
  pipeline_synth_failure_dest_untouched ttsFail [['a'], ['b']] fsEmpty
    ⟨['b'], by decide, by decide⟩

/-- Claim C5 (counterexample): a failure partway through merging segments
(the second temp file is unparsable) aborts the run but leaves the
destination path written: the merge opens the destination for writing before
reading all inputs, so the claim "on any stage failure the destination is
untouched" is false. -/
theorem pipeline_merge_failure_writes_dest :
    (convert_text_to_speech ttsBad [['a'], ['b']] 0 fsEmpty).2 = false ∧
    (convert_text_to_speech ttsBad [['a'], ['b']] 0 fsEmpty).1 0 =
      some ⟨some ⟨1, 2, 22050⟩, [7]⟩ ∧
    fsEmpty 0 = none := by
  decide

/-! ### Claim C1: merging and format metadata -/

theorem concatWavLoop_ge1 (out : Path) :
    ∀ (rest : List Path) (i : Nat) (fs : FS) (cur : WavData),
    i ≠ 0 → out ∉ rest → fs out = some cur →
    (∀ f ∈ rest, ∃ w, fs f = some w ∧ w.params.isSome) →
    (concatWavLoop out rest i fs).2 = none ∧
    (concatWavLoop out rest i fs).1 out =
      some ⟨cur.params,
        cur.frames ++ (rest.map (fun f => ((fs f).getD ⟨none, []⟩).frames)).flatten⟩ := by
  intro rest
  induction rest with
  | nil =>
    intro i fs cur _ _ hcur _
    refine ⟨rfl, ?_⟩
    simpa [concatWavLoop] using hcur
  | cons f rest ih =>
    intro i fs cur hi hout hcur hread
    have hfo : f ≠ out := by
      intro h; exact (by simp [h] at hout)
    rcases hread f (List.mem_cons_self f rest) with ⟨w, hw, hwp⟩
    simp only [concatWavLoop, hw]
    rcases Option.isSome_iff_exists.mp hwp with ⟨p, hp⟩
    simp only [hp]
    have hcur2 : (fs out).getD ⟨none, []⟩ = cur := by rw [hcur]; rfl
    have hstep := ih (i + 1) (setF fs out
        (some ⟨if i = 0 then some p else ((fs out).getD ⟨none, []⟩).params,
          ((fs out).getD ⟨none, []⟩).frames ++ w.frames⟩))
      ⟨if i = 0 then some p else ((fs out).getD ⟨none, []⟩).params,
        ((fs out).getD ⟨none, []⟩).frames ++ w.frames⟩
      (by simp) (by intro h; exact hout (List.mem_cons_of_mem f h)) (setF_same _ _ _)
      (by
        intro f2 hf2
        have hne : f2 ≠ out := by
          intro h; rw [h] at hf2; exact hout (List.mem_cons_of_mem f hf2)
        rcases hread f2 (List.mem_cons_of_mem f hf2) with ⟨w2, hw2, hwp2⟩
        exact ⟨w2, by rw [setF_other _ _ _ _ hne]; exact hw2, hwp2⟩)
    refine ⟨hstep.1, ?_⟩
    rw [hstep.2]
    have hif : (if i = 0 then some p else ((fs out).getD ⟨none, []⟩).params) =
        cur.params := by
      rw [if_neg hi, hcur2]
    have hmap : rest.map (fun f2 =>
        ((setF fs out
          (some ⟨if i = 0 then some p else ((fs out).getD ⟨none, []⟩).params,
            ((fs out).getD ⟨none, []⟩).frames ++ w.frames⟩) f2).getD ⟨none, []⟩).frames) =
        rest.map (fun f2 => ((fs f2).getD ⟨none, []⟩).frames) := by
      apply List.map_congr_left
      intro f2 hf2
      have hne : f2 ≠ out := by
        intro h; rw [h] at hf2; exact hout (List.mem_cons_of_mem f hf2)
      rw [setF_other _ _ _ _ hne]
    rw [hmap, hif, hcur2]
    simp [hw, List.append_assoc]

/-- Claim C1 (amended): merging two or more readable segments never fails and
never compares format metadata: the first segment's parameters become the
output's parameters and every segment's frames are appended in order, even
when the formats differ, and the output file is written at the destination.
There is no `FormatMismatchError` in the code (counterexample below). -/
theorem concatenate_wav_files_first_params (fs : FS) (f0 : Path) (rest : List Path)
    (out : Path) (w0 : WavData)
    (hout : out ∉ f0 :: rest) (hw0 : fs f0 = some w0) (hp0 : w0.params.isSome)
    (hread : ∀ f ∈ f0 :: rest, ∃ w, fs f = some w ∧ w.params.isSome) :
    (concatenate_wav_files fs (f0 :: rest) out).2 = none ∧
    (concatenate_wav_files fs (f0 :: rest) out).1 out =
      some ⟨w0.params,
        ((f0 :: rest).map (fun f => ((fs f).getD ⟨none, []⟩).frames)).flatten⟩ := by
  have hf0 : f0 ≠ out := by
    intro h; exact hout (by simp [h])
  have houtr : out ∉ rest := fun h => hout (List.mem_cons_of_mem f0 h)
  rcases Option.isSome_iff_exists.mp hp0 with ⟨p0, hp0e⟩
  simp only [concatenate_wav_files, concatWavLoop]
  rw [setF_other _ _ _ _ hf0, hw0]
  simp only [hp0e, setF_same, eq_self_iff_true, if_true, Option.getD_some,
    Nat.zero_add, List.nil_append]
  have hstep := concatWavLoop_ge1 out rest 1
    (setF (setF fs out (some ⟨none, []⟩)) out (some ⟨some p0, w0.frames⟩))
    ⟨some p0, w0.frames⟩
    (by simp) houtr (setF_same _ _ _)
    (by
      intro f2 hf2
      have hne : f2 ≠ out := by
        intro h; rw [h] at hf2; exact houtr hf2
      rcases hread f2 (List.mem_cons_of_mem f0 hf2) with ⟨w2, hw2, hwp2⟩
      refine ⟨w2, ?_, hwp2⟩
      rw [setF_other _ _ _ _ hne, setF_other _ _ _ _ hne]
      exact hw2)
  refine ⟨hstep.1, ?_⟩
  rw [hstep.2]
  have hmap : rest.map (fun f2 =>
      ((setF (setF fs out (some ⟨none, []⟩)) out (some ⟨some p0, w0.frames⟩)
          f2).getD ⟨none, []⟩).frames) =
      rest.map (fun f2 => ((fs f2).getD ⟨none, []⟩).frames) := by
    apply List.map_congr_left
    intro f2 hf2
    have hne : f2 ≠ out := by
      intro h; rw [h] at hf2; exact houtr hf2
    rw [setF_other _ _ _ _ hne, setF_other _ _ _ _ hne]
  rw [hmap]
  simp [hw0, hp0e, setF_same]

theorem concatenate_wav_files_first_params_witness :
    (concatenate_wav_files fsMismatch [1, 2] 0).2 = none ∧
    (concatenate_wav_files fsMismatch [1, 2] 0).1 0 =
      some ⟨some ⟨1, 2, 22050⟩,
        (([1, 2] : List Path).map
          (fun f => ((fsMismatch f).getD ⟨none, []⟩).frames)).flatten⟩ :=
  concatenate_wav_files_first_params fsMismatch 1 [2] 0 ⟨some ⟨1, 2, 22050⟩, [10, 20]⟩
    (by decide) (by decide) (by decide)
    (by
      intro f hf
      rcases List.mem_cons.mp hf with rfl | hf2
      · exact ⟨⟨some ⟨1, 2, 22050⟩, [10, 20]⟩, rfl, rfl⟩
      · rcases List.mem_cons.mp hf2 with rfl | hf3
        · exact ⟨⟨some ⟨1, 2, 44100⟩, [30]⟩, rfl, rfl⟩
        · exact absurd hf3 (List.not_mem_nil f))

/-- Claim C1 (counterexample): two segments whose sample rates differ (22050
vs 44100) are merged without any error and the output file is written at the
destination, contradicting "on any mismatch the merge fails with
`FormatMismatchError` ... leaving no output file written". -/
theorem concat_mismatch_no_error :
    (concatenate_wav_files fsMismatch [1, 2] 0).2 = none ∧
    (concatenate_wav_files fsMismatch [1, 2] 0).1 0 =
      some ⟨some ⟨1, 2, 22050⟩, [10, 20, 30]⟩ ∧
    (fsMismatch 1).getD ⟨none, []⟩ ≠ (fsMismatch 2).getD ⟨none, []⟩ := by
  decide

/-! ### Claim C7: encoding resolver -/

theorem readLoop_none_iff (decode : Encoding → List Nat → Option (List Char))
    (data : List Nat) :
    ∀ es : List Encoding, readLoop decode data es = none ↔
      ∀ e ∈ es, ∀ t, decode e data = some t → pyStrip t = [] := by
  intro es
  induction es with
  | nil => simp [readLoop]
  | cons e rest ih =>
    simp only [readLoop]
    cases hd : decode e data with
    | none =>
      simp only []
      constructor
      · intro h f hf t ht
        rcases List.mem_cons.mp hf with rfl | hf2
        · rw [hd] at ht; exact absurd ht (by simp)
        · exact (ih.mp h) f hf2 t ht
      · intro h
        exact ih.mpr (fun f hf t ht => h f (List.mem_cons_of_mem e hf) t ht)
    | some t =>
      simp only []
      by_cases hs : pyStrip t = []
      · rw [if_neg (by simpa using hs)]
        constructor
        · intro h f hf t2 ht2
          rcases List.mem_cons.mp hf with rfl | hf2
          · rw [hd] at ht2
            injection ht2 with ht2e
            rw [← ht2e]; exact hs
          · exact (ih.mp h) f hf2 t2 ht2
        · intro h
          exact ih.mpr (fun f hf t2 ht2 => h f (List.mem_cons_of_mem e hf) t2 ht2)
      · rw [if_pos (by simpa using hs)]
        constructor
        · intro h; exact absurd h (by simp)
        · intro h
          exact absurd (h e (List.mem_cons_self e rest) t hd) hs

theorem readLoop_some_first (decode : Encoding → List Nat → Option (List Char))
    (data : List Nat) :
    ∀ (es : List Encoding) (s : List Char), readLoop decode data es = some s →
      ∃ i, ∃ hi : i < es.length,
        (∃ t, decode (es.get ⟨i, hi⟩) data = some t ∧ pyStrip t = s ∧ s ≠ []) ∧
        ∀ j, ∀ hj : j < es.length, j < i →
          ∀ t, decode (es.get ⟨j, hj⟩) data = some t → pyStrip t = [] := by
  intro es
  induction es with
  | nil => intro s h; exact absurd h (by simp [readLoop])
  | cons e rest ih =>
    intro s h
    simp only [readLoop] at h
    cases hd : decode e data with
    | none =>
      rw [hd] at h
      simp only [] at h
      rcases ih s h with ⟨i, hi, hfound, hprior⟩
      refine ⟨i + 1, by simpa using Nat.succ_lt_succ hi, by simpa using hfound, ?_⟩
      intro j hj hlt t ht
      match j with
      | 0 =>
        rw [show (e :: rest).get ⟨0, hj⟩ = e from rfl] at ht
        rw [hd] at ht
        exact absurd ht (by simp)
      | j' + 1 =>
        have hj' : j' < rest.length := by simpa using hj
        rw [show (e :: rest).get ⟨j' + 1, hj⟩ = rest.get ⟨j', hj'⟩ from rfl] at ht
        exact hprior j' hj' (by omega) t ht
    | some t =>
      rw [hd] at h
      simp only [] at h
      by_cases hs : pyStrip t = []
      · rw [if_neg (by simpa using hs)] at h
        rcases ih s h with ⟨i, hi, hfound, hprior⟩
        refine ⟨i + 1, by simpa using Nat.succ_lt_succ hi, by simpa using hfound, ?_⟩
        intro j hj hlt t2 ht2
        match j with
        | 0 =>
          rw [show (e :: rest).get ⟨0, hj⟩ = e from rfl] at ht2
          rw [hd] at ht2
          injection ht2 with ht2e
          rw [← ht2e]; exact hs
        | j' + 1 =>
          have hj' : j' < rest.length := by simpa using hj
          rw [show (e :: rest).get ⟨j' + 1, hj⟩ = rest.get ⟨j', hj'⟩ from rfl] at ht2
          exact hprior j' hj' (by omega) t2 ht2
      · rw [if_pos (by simpa using hs)] at h
        injection h with he
        refine ⟨0, by simp, ⟨t, hd, he, by rw [← he]; exact hs⟩, ?_⟩
        intro j hj hlt
        exact absurd hlt (by omega)

/-- Claim C7: `read_text_file` tries the candidate encodings in the fixed
priority order `[utf-8, utf-8-sig, iso-8859-2, cp1250]`; it fails exactly
when no candidate decodes to non-whitespace content, and on success it
returns the stripped text of the first candidate that decodes with non-empty
stripped content, every earlier candidate having failed to do so. -/
theorem read_text_file_first_success (decode : Encoding → List Nat → Option (List Char))
    (data : List Nat) :
    (read_text_file decode data = none ↔
      ∀ e ∈ encodings, ∀ t, decode e data = some t → pyStrip t = []) ∧
    ∀ s, read_text_file decode data = some s →
      ∃ i, ∃ hi : i < encodings.length,
        (∃ t, decode (encodings.get ⟨i, hi⟩) data = some t ∧ pyStrip t = s ∧ s ≠ []) ∧
        ∀ j, ∀ hj : j < encodings.length, j < i →
          ∀ t, decode (encodings.get ⟨j, hj⟩) data = some t → pyStrip t = [] :=
  ⟨readLoop_none_iff decode data encodings,
   fun s h => readLoop_some_first decode data encodings s h⟩

theorem read_text_file_first_success_witness :
    ∃ i, ∃ hi : i < encodings.length,
      (∃ t, decodeW (encodings.get ⟨i, hi⟩) [] = some t ∧
        pyStrip t = ['a'] ∧ (['a'] : List Char) ≠ []) ∧
      ∀ j, ∀ hj : j < encodings.length, j < i →
        ∀ t, decodeW (encodings.get ⟨j, hj⟩) [] = some t → pyStrip t = [] :=
  (read_text_file_first_success decodeW []).2 ['a'] (by decide)

/-! ### Claim C2: order of the newline substitution in `clean_text` -/

theorem headIsSpace_false_sub_ws (l : List Char) (h : headIsSpace l = false) :
    headIsSpace (sub_ws l) = false := by
  cases l with
  | nil => rfl
  | cons c rest =>
    simp only [headIsSpace] at h
    simp [sub_ws, h, headIsSpace]

theorem nl_not_mem_sub_ws : ∀ l : List Char, '\n' ∉ sub_ws l := by
  intro l
  induction l with
  | nil => simp [sub_ws]
  | cons c rest ih =>
    by_cases hc : isPySpace c = true
    · by_cases hh : headIsSpace rest = true
      · simpa [sub_ws, hc, hh] using ih
      · rw [show sub_ws (c :: rest) = ' ' :: sub_ws rest from by
          simp [sub_ws, hc, hh]]
        intro hmem
        rcases List.mem_cons.mp hmem with h | h
        · exact absurd h (by decide)
        · exact ih h
    · rw [show sub_ws (c :: rest) = c :: sub_ws rest from by simp [sub_ws, hc]]
      intro hmem
      rcases List.mem_cons.mp hmem with h | h
      · rw [← h] at hc; exact hc (by decide)
      · exact ih h

theorem sub_nl_noop : ∀ l : List Char, '\n' ∉ l → sub_nl l = l := by
  intro l
  induction l with
  | nil => intro _; rfl
  | cons c rest ih =>
    intro h
    have hc : ¬ c = '\n' := fun he => h (by simp [he])
    simp only [sub_nl, if_neg (by simpa using hc)]
    rw [ih (fun hm => h (List.mem_cons_of_mem c hm))]

theorem clean_text_ws_first (text : List Char) :
    clean_text text = pyStrip (applyReplacements (sub_ws text)) := by
  unfold clean_text
  rw [sub_nl_noop (sub_ws text) (nl_not_mem_sub_ws text)]

/-- Claim C2 (amended): `clean_text` collapses ALL whitespace runs (newlines
included) to single spaces FIRST, which makes the subsequent newline
substitution a no-op; a newline-separated paragraph break therefore appears
as a single space in the output, not as ". " (counterexample below). -/
theorem clean_text_newline_noop (text : List Char) :
    clean_text text = pyStrip (applyReplacements (sub_ws text)) :=
  clean_text_ws_first text

/-- Claim C2 (counterexample): on "a\nb" the code produces "a b" while the
spec's ordering (newlines first) would produce "a. b"; the newline paragraph
break does not appear as a sentence boundary. -/
theorem clean_text_newline_order_cex :
    clean_text ['a', '\n', 'b'] = ['a', ' ', 'b'] ∧
    clean_text_spec ['a', '\n', 'b'] = ['a', '.', ' ', 'b'] ∧
    clean_text ['a', '\n', 'b'] ≠ clean_text_spec ['a', '\n', 'b'] := by
  decide

/-! ### Claim C10: empty or whitespace-only input -/

theorem isTerm_false_of_space (c : Char) (h : isPySpace c = true) : isTerm c = false := by
  cases hT : isTerm c with
  | false => rfl
  | true =>
    exfalso
    simp only [isTerm, Bool.or_eq_true, decide_eq_true_eq] at hT
    rcases hT with (h1 | h1) | h1 <;> rw [h1] at h <;> exact absurd h (by decide)

theorem splitSentencesAux_all_space :
    ∀ (l acc : List Char), (∀ c ∈ l, isPySpace c = true) →
    splitSentencesAux false l acc [] = [acc.reverse ++ l] := by
  intro l
  induction l with
  | nil => intro acc _; simp [splitSentencesAux]
  | cons c rest ih =>
    intro acc h
    have hc : isPySpace c = true := h c (List.mem_cons_self c rest)
    have ht : isTerm c = false := isTerm_false_of_space c hc
    rw [show splitSentencesAux false (c :: rest) acc [] =
        splitSentencesAux false rest (c :: acc) [] from by
      simp [splitSentencesAux, ht]]
    rw [ih (c :: acc) (fun d hd => h d (List.mem_cons_of_mem c hd))]
    simp

theorem pyStrip_nil_of_all_space (l : List Char) (h : ∀ c ∈ l, isPySpace c = true) :
    pyStrip l = [] := by
  have h1 : stripLeft l = [] := by
    simp only [stripLeft]
    rw [List.dropWhile_eq_nil_iff]
    intro x hx; exact h x hx
  simp [pyStrip, h1, stripRight]

/-- Claim C10: on an empty or whitespace-only text, `split_text_into_chunks`
returns the empty sequence (no error, no empty-string chunk). -/
theorem split_chunks_whitespace_empty (text : List Char) (N : Nat) (hN : 0 < N)
    (h : ∀ c ∈ text, isPySpace c = true) :
    split_text_into_chunks text N = [] := by
  unfold split_text_into_chunks pySplitSentences
  rw [splitSentencesAux_all_space text [] h]
  simp only [List.reverse_nil, List.nil_append, List.foldl_cons, List.foldl_nil]
  rw [show chunkStep N ([], []) text = ([], []) from by
    simp [chunkStep, pyStrip_nil_of_all_space text h]]
  simp

theorem split_chunks_whitespace_empty_witness :
    split_text_into_chunks [' ', '\t'] 3 = [] :=
  split_chunks_whitespace_empty [' ', '\t'] 3 (by decide) (by decide)

/-! ### Strip and collapse lemmas (for claims C3, C4, C6) -/

theorem dropWhile_space_eq_self (l : List Char) (h : headIsSpace l = false) :
    l.dropWhile isPySpace = l := by
  cases l with
  | nil => rfl
  | cons c rest =>
    simp only [headIsSpace] at h
    exact List.dropWhile_cons_of_neg (by simp [h])

theorem headIsSpace_dropWhile (l : List Char) :
    headIsSpace (l.dropWhile isPySpace) = false := by
  induction l with
  | nil => rfl
  | cons c rest ih =>
    by_cases hc : isPySpace c = true
    · rw [List.dropWhile_cons_of_pos hc]; exact ih
    · rw [List.dropWhile_cons_of_neg (by simpa using hc)]
      simpa [headIsSpace] using hc

theorem headIsSpace_stripLeft (l : List Char) : headIsSpace (stripLeft l) = false :=
  headIsSpace_dropWhile l

theorem stripLeft_idem (l : List Char) : stripLeft (stripLeft l) = stripLeft l :=
  dropWhile_space_eq_self _ (headIsSpace_stripLeft l)

theorem stripRight_reverse (l : List Char) :
    (stripRight l).reverse = l.reverse.dropWhile isPySpace := by
  simp [stripRight]

theorem stripRight_idem (l : List Char) : stripRight (stripRight l) = stripRight l := by
  show ((stripRight l).reverse.dropWhile isPySpace).reverse = stripRight l
  rw [stripRight_reverse l, dropWhile_space_eq_self _ (headIsSpace_dropWhile l.reverse)]
  rfl

theorem stripRight_prefix (l : List Char) : ∃ t, l = stripRight l ++ t := by
  refine ⟨(l.reverse.takeWhile isPySpace).reverse, ?_⟩
  have h : l.reverse.takeWhile isPySpace ++ l.reverse.dropWhile isPySpace =
      l.reverse := by simp
  have h2 := congrArg List.reverse h
  rw [List.reverse_append, List.reverse_reverse] at h2
  exact h2.symm

theorem headIsSpace_append_false (l1 l2 : List Char)
    (h : headIsSpace (l1 ++ l2) = false) : headIsSpace l1 = false := by
  cases l1 with
  | nil => rfl
  | cons c rest => simpa [headIsSpace] using h

theorem stripLeft_stripRight (l : List Char) (h : headIsSpace l = false) :
    stripLeft (stripRight l) = stripRight l := by
  rcases stripRight_prefix l with ⟨t, ht⟩
  apply dropWhile_space_eq_self
  apply headIsSpace_append_false (stripRight l) t
  rw [← ht]; exact h

theorem pyStrip_idem (l : List Char) : pyStrip (pyStrip l) = pyStrip l := by
  unfold pyStrip
  rw [stripLeft_stripRight _ (headIsSpace_stripLeft l), stripRight_idem]

theorem collapsedB_sub_ws (l : List Char) : collapsedB (sub_ws l) = true := by
  induction l with
  | nil => rfl
  | cons c rest ih =>
    by_cases hc : isPySpace c = true
    · by_cases hh : headIsSpace rest = true
      · rw [show sub_ws (c :: rest) = sub_ws rest from by simp [sub_ws, hc, hh]]
        exact ih
      · rw [show sub_ws (c :: rest) = ' ' :: sub_ws rest from by
          simp [sub_ws, hc, hh]]
        simp only [collapsedB, Bool.and_eq_true]
        refine ⟨?_, ih⟩
        have hss : headIsSpace (sub_ws rest) = false :=
          headIsSpace_false_sub_ws rest (by simpa using hh)
        simp [hss]
    · rw [show sub_ws (c :: rest) = c :: sub_ws rest from by simp [sub_ws, hc]]
      simp only [collapsedB, Bool.and_eq_true]
      exact ⟨by simp [hc], ih⟩

theorem sub_ws_eq_self_of_collapsed (l : List Char) (h : collapsedB l = true) :
    sub_ws l = l := by
  induction l with
  | nil => rfl
  | cons c rest ih =>
    simp only [collapsedB, Bool.and_eq_true, Bool.or_eq_true, Bool.not_eq_true',
      Bool.and_eq_true, decide_eq_true_eq] at h
    rcases h with ⟨hcomp, htail⟩
    by_cases hc : isPySpace c = true
    · rcases hcomp with hns | ⟨hsp, hhd⟩
      · rw [hc] at hns; exact absurd hns (by simp)
      · rw [show sub_ws (c :: rest) = ' ' :: sub_ws rest from by
          simp [sub_ws, hc, hhd]]
        rw [ih htail, hsp]
    · rw [show sub_ws (c :: rest) = c :: sub_ws rest from by simp [sub_ws, hc]]
      rw [ih htail]

theorem collapsedB_append_right (l1 l2 : List Char)
    (h : collapsedB (l1 ++ l2) = true) : collapsedB l2 = true := by
  induction l1 with
  | nil => exact h
  | cons c rest ih =>
    simp only [List.cons_append, collapsedB, Bool.and_eq_true] at h
    exact ih h.2

theorem collapsedB_append_left (l1 l2 : List Char)
    (h : collapsedB (l1 ++ l2) = true) : collapsedB l1 = true := by
  induction l1 with
  | nil => rfl
  | cons c rest ih =>
    simp only [List.cons_append, collapsedB, Bool.and_eq_true] at h
    rcases h with ⟨hcomp, htail⟩
    simp only [collapsedB, Bool.and_eq_true]
    refine ⟨?_, ih htail⟩
    simp only [Bool.or_eq_true, Bool.not_eq_true', Bool.and_eq_true,
      decide_eq_true_eq] at hcomp ⊢
    rcases hcomp with hns | ⟨hsp, hhd⟩
    · exact Or.inl hns
    · exact Or.inr ⟨hsp, headIsSpace_append_false rest l2 hhd⟩

theorem collapsedB_stripLeft (l : List Char) (h : collapsedB l = true) :
    collapsedB (stripLeft l) = true := by
  apply collapsedB_append_right (l.takeWhile isPySpace)
  rw [show l.takeWhile isPySpace ++ stripLeft l = l from by simp [stripLeft]]
  exact h

theorem collapsedB_stripRight (l : List Char) (h : collapsedB l = true) :
    collapsedB (stripRight l) = true := by
  rcases stripRight_prefix l with ⟨t, ht⟩
  apply collapsedB_append_left (stripRight l) t
  rw [← ht]; exact h

theorem sub_ws_pyStrip_sub_ws (l : List Char) :
    sub_ws (pyStrip (sub_ws l)) = pyStrip (sub_ws l) := by
  apply sub_ws_eq_self_of_collapsed
  exact collapsedB_stripRight _ (collapsedB_stripLeft _ (collapsedB_sub_ws l))

theorem mem_sub_ws (c : Char) (l : List Char) (h : c ∈ sub_ws l) :
    c = ' ' ∨ c ∈ l := by
  induction l with
  | nil => exact absurd h (by simp [sub_ws])
  | cons d rest ih =>
    by_cases hd : isPySpace d = true
    · by_cases hh : headIsSpace rest = true
      · rw [show sub_ws (d :: rest) = sub_ws rest from by simp [sub_ws, hd, hh]] at h
        rcases ih h with h2 | h2
        · exact Or.inl h2
        · exact Or.inr (List.mem_cons_of_mem d h2)
      · rw [show sub_ws (d :: rest) = ' ' :: sub_ws rest from by
          simp [sub_ws, hd, hh]] at h
        rcases List.mem_cons.mp h with h2 | h2
        · exact Or.inl h2
        · rcases ih h2 with h3 | h3
          · exact Or.inl h3
          · exact Or.inr (List.mem_cons_of_mem d h3)
    · rw [show sub_ws (d :: rest) = d :: sub_ws rest from by simp [sub_ws, hd]] at h
      rcases List.mem_cons.mp h with h2 | h2
      · exact Or.inr (by simp [h2])
      · rcases ih h2 with h3 | h3
        · exact Or.inl h3
        · exact Or.inr (List.mem_cons_of_mem d h3)

theorem pyStrip_sublist (l : List Char) : List.Sublist (pyStrip l) l := by
  have h1 : List.Sublist (stripLeft l) l := List.dropWhile_sublist isPySpace
  have h2 : List.Sublist (stripRight (stripLeft l)) (stripLeft l) := by
    have h3 : List.Sublist ((stripLeft l).reverse.dropWhile isPySpace)
        (stripLeft l).reverse := List.dropWhile_sublist isPySpace
    have h4 := h3.reverse
    rw [List.reverse_reverse] at h4
    exact h4
  exact h2.trans h1

theorem mem_pyStrip (c : Char) (l : List Char) (h : c ∈ pyStrip l) : c ∈ l :=
  (pyStrip_sublist l).subset h

theorem pyReplaceChar_noop (old : Char) (new : List Char) :
    ∀ l : List Char, old ∉ l → pyReplaceChar old new l = l := by
  intro l
  induction l with
  | nil => intro _; rfl
  | cons c rest ih =>
    intro h
    have hc : ¬ c = old := fun he => h (by simp [he])
    have htail : pyReplaceChar old new rest = rest :=
      ih (fun hm => h (List.mem_cons_of_mem c hm))
    simp only [pyReplaceChar, List.flatMap_cons, if_neg hc]
    simp only [pyReplaceChar] at htail
    rw [htail]
    rfl

theorem foldl_replace_noop :
    ∀ (rs : List (Char × List Char)) (l : List Char), (∀ pr ∈ rs, pr.1 ∉ l) →
    rs.foldl (fun acc p => pyReplaceChar p.1 p.2 acc) l = l := by
  intro rs
  induction rs with
  | nil => intro l _; rfl
  | cons r rest ih =>
    intro l h
    simp only [List.foldl_cons]
    rw [pyReplaceChar_noop r.1 r.2 l (h r (List.mem_cons_self r rest))]
    exact ih l (fun pr hpr => h pr (List.mem_cons_of_mem r hpr))

theorem applyReplacements_noop (l : List Char)
    (h : ∀ pr ∈ replacements, pr.1 ∉ l) : applyReplacements l = l :=
  foldl_replace_noop replacements l h

theorem clean_text_no_specials (text : List Char)
    (h : ∀ pr ∈ replacements, pr.1 ∉ text) :
    clean_text text = pyStrip (sub_ws text) := by
  rw [clean_text_ws_first]
  rw [applyReplacements_noop]
  intro pr hpr hmem
  rcases mem_sub_ws pr.1 text hmem with h2 | h2
  · have hsp : ∀ q ∈ replacements, q.1 ≠ ' ' := by decide
    exact hsp pr hpr h2
  · exact h pr hpr h2

/-! ### Claim C4: idempotence of `clean_text` -/

/-- Claim C4 (counterexample): `clean_text` is not idempotent.  On "&&" the
substitution produces adjacent spaces ("és  és") which a second application
collapses ("és és"). -/
theorem clean_text_not_idempotent :
    clean_text "&&".data = "és  és".data ∧
    clean_text (clean_text "&&".data) = "és és".data ∧
    clean_text (clean_text "&&".data) ≠ clean_text "&&".data := by
  decide

/-- Claim C4 (amended): `clean_text` is idempotent on inputs containing none
of the substituted symbols (&, @, #, %, +, =, <, >); in general a
substitution can create adjacent spaces that only the second pass collapses,
so idempotence fails (counterexample above). -/
theorem clean_text_idempotent_no_specials (text : List Char)
    (h : ∀ pr ∈ replacements, pr.1 ∉ text) :
    clean_text (clean_text text) = clean_text text := by
  have h1 : clean_text text = pyStrip (sub_ws text) := clean_text_no_specials text h
  have h2 : ∀ pr ∈ replacements, pr.1 ∉ pyStrip (sub_ws text) := by
    intro pr hpr hmem
    rcases mem_sub_ws pr.1 text (mem_pyStrip _ _ hmem) with h3 | h3
    · have hsp : ∀ q ∈ replacements, q.1 ≠ ' ' := by decide
      exact hsp pr hpr h3
    · exact h pr hpr h3
  rw [h1]
  rw [show clean_text (pyStrip (sub_ws text)) =
      pyStrip (sub_ws (pyStrip (sub_ws text))) from
    clean_text_no_specials _ h2]
  rw [sub_ws_pyStrip_sub_ws, pyStrip_idem]

theorem clean_text_idempotent_no_specials_witness :
    clean_text (clean_text " a \n b ".data) = clean_text " a \n b ".data :=
  clean_text_idempotent_no_specials " a \n b ".data (by decide)

/-! ### Hard-split lemmas (for claims C3, C6) -/

theorem pyStrip_length_le (l : List Char) : (pyStrip l).length ≤ l.length :=
  (pyStrip_sublist l).length_le

theorem hardSplitGo_slices_len (N : Nat) :
    ∀ (fuel : Nat) (s : List Char), ∀ x ∈ (hardSplitGo N fuel s).1, x.length = N := by
  intro fuel
  induction fuel with
  | zero => intro s x hx; exact absurd hx (by simp [hardSplitGo])
  | succ fuel ih =>
    intro s x hx
    simp only [hardSplitGo] at hx
    by_cases h : N < s.length
    · rw [if_pos h] at hx
      rcases List.mem_cons.mp hx with rfl | hx2
      · simp [List.length_take]; omega
      · exact ih _ x hx2
    · rw [if_neg h] at hx
      exact absurd hx (by simp)

theorem hardSplitGo_rem_le (N : Nat) (hN : 0 < N) :
    ∀ (fuel : Nat) (s : List Char), s.length ≤ fuel →
    (hardSplitGo N fuel s).2.length ≤ N := by
  intro fuel
  induction fuel with
  | zero =>
    intro s hs
    have : s.length = 0 := Nat.le_zero.mp hs
    simp [hardSplitGo, this]
  | succ fuel ih =>
    intro s hs
    simp only [hardSplitGo]
    by_cases h : N < s.length
    · rw [if_pos h]
      apply ih
      simp only [List.length_drop]
      omega
    · rw [if_neg h]
      simpa using Nat.le_of_not_lt h

theorem hardSplitGo_flatten (N : Nat) :
    ∀ (fuel : Nat) (s : List Char),
    (hardSplitGo N fuel s).1.flatten ++ (hardSplitGo N fuel s).2 = s := by
  intro fuel
  induction fuel with
  | zero => intro s; simp [hardSplitGo]
  | succ fuel ih =>
    intro s
    simp only [hardSplitGo]
    by_cases h : N < s.length
    · rw [if_pos h]
      simp only [List.flatten_cons, List.append_assoc]
      rw [ih (s.drop N)]
      exact List.take_append_drop N s
    · rw [if_neg h]
      simp

theorem hardSplitGo_rem_suffix (N : Nat) :
    ∀ (fuel : Nat) (s : List Char), ∃ t, t ++ (hardSplitGo N fuel s).2 = s := by
  intro fuel
  induction fuel with
  | zero => intro s; exact ⟨[], by simp [hardSplitGo]⟩
  | succ fuel ih =>
    intro s
    simp only [hardSplitGo]
    by_cases h : N < s.length
    · rw [if_pos h]
      rcases ih (s.drop N) with ⟨t, ht⟩
      exact ⟨s.take N ++ t, by rw [List.append_assoc, ht]; exact List.take_append_drop N s⟩
    · rw [if_neg h]
      exact ⟨[], by simp⟩

theorem hardSplitGo_rem_ne (N : Nat) (hN : 0 < N) :
    ∀ (fuel : Nat) (s : List Char), s ≠ [] → (hardSplitGo N fuel s).2 ≠ [] := by
  intro fuel
  induction fuel with
  | zero => intro s hs; simpa [hardSplitGo] using hs
  | succ fuel ih =>
    intro s hs
    simp only [hardSplitGo]
    by_cases h : N < s.length
    · rw [if_pos h]
      apply ih
      intro hd
      have : (s.drop N).length = 0 := by rw [hd]; rfl
      simp only [List.length_drop] at this
      omega
    · rw [if_neg h]
      simpa using hs

theorem hardSplit_slices_len (N : Nat) (hN : 0 < N) (s : List Char) :
    ∀ x ∈ (hardSplit N s).1, x.length = N := by
  unfold hardSplit
  rw [if_pos hN]
  exact hardSplitGo_slices_len N s.length s

theorem hardSplit_rem_le (N : Nat) (hN : 0 < N) (s : List Char) :
    (hardSplit N s).2.length ≤ N := by
  unfold hardSplit
  rw [if_pos hN]
  exact hardSplitGo_rem_le N hN s.length s (Nat.le_refl _)

theorem hardSplit_flatten (N : Nat) (hN : 0 < N) (s : List Char) :
    (hardSplit N s).1.flatten ++ (hardSplit N s).2 = s := by
  unfold hardSplit
  rw [if_pos hN]
  exact hardSplitGo_flatten N s.length s

theorem hardSplit_rem_suffix (N : Nat) (hN : 0 < N) (s : List Char) :
    ∃ t, t ++ (hardSplit N s).2 = s := by
  unfold hardSplit
  rw [if_pos hN]
  exact hardSplitGo_rem_suffix N s.length s

theorem hardSplit_rem_ne (N : Nat) (hN : 0 < N) (s : List Char) (hs : s ≠ []) :
    (hardSplit N s).2 ≠ [] := by
  unfold hardSplit
  rw [if_pos hN]
  exact hardSplitGo_rem_ne N hN s.length s hs

/-! ### Claim C3: chunk size bound -/

theorem chunk_bound_fold (N : Nat) (hN : 0 < N) (S : List (List Char)) :
    ∀ (sents : List (List Char)) (ch : List (List Char)) (cur : List Char),
    (∀ s ∈ sents, s ∈ S) →
    (∀ c ∈ ch, c.length ≤ N ∨ ∃ s ∈ S, c = pyStrip s) →
    (cur.length ≤ N ∨ ∃ s ∈ S, cur = pyStrip s) →
    (∀ c ∈ (sents.foldl (chunkStep N) (ch, cur)).1,
        c.length ≤ N ∨ ∃ s ∈ S, c = pyStrip s) ∧
    ((sents.foldl (chunkStep N) (ch, cur)).2.length ≤ N ∨
        ∃ s ∈ S, (sents.foldl (chunkStep N) (ch, cur)).2 = pyStrip s) := by
  intro sents
  induction sents with
  | nil => intro ch cur _ hch hcur; exact ⟨hch, hcur⟩
  | cons s0 sents ih =>
    intro ch cur hmem hch hcur
    simp only [List.foldl_cons]
    have hs0 : s0 ∈ S := hmem s0 (List.mem_cons_self s0 sents)
    have hmem2 : ∀ s ∈ sents, s ∈ S := fun s hs => hmem s (List.mem_cons_of_mem s0 hs)
    have hcurstrip : (pyStrip cur).length ≤ N ∨ ∃ s ∈ S, pyStrip cur = pyStrip s := by
      rcases hcur with h | ⟨s, hsS, hse⟩
      · exact Or.inl (Nat.le_trans (pyStrip_length_le cur) h)
      · exact Or.inr ⟨s, hsS, by rw [hse, pyStrip_idem]⟩
    unfold chunkStep
    by_cases hemp : pyStrip s0 = []
    · rw [if_pos hemp]
      exact ih ch cur hmem2 hch hcur
    · rw [if_neg hemp]
      by_cases hover : cur.length + (pyStrip s0).length + 2 > N
      · rw [if_pos hover]
        by_cases hcurne : cur ≠ []
        · rw [if_pos hcurne]
          apply ih
          · exact hmem2
          · intro c hc
            rcases List.mem_append.mp hc with h | h
            · exact hch c h
            · rw [List.mem_singleton.mp h]
              exact hcurstrip
          · exact Or.inr ⟨s0, hs0, rfl⟩
        · rw [if_neg hcurne]
          apply ih
          · exact hmem2
          · intro c hc
            rcases List.mem_append.mp hc with h | h
            · exact hch c h
            · exact Or.inl (Nat.le_of_eq (hardSplit_slices_len N hN (pyStrip s0) c h))
          · exact Or.inl (hardSplit_rem_le N hN (pyStrip s0))
      · rw [if_neg hover]
        apply ih
        · exact hmem2
        · exact hch
        · by_cases hcure : cur = []
          · rw [if_pos hcure]
            exact Or.inr ⟨s0, hs0, rfl⟩
          · rw [if_neg hcure]
            left
            simp only [List.length_append, List.length_cons]
            omega

/-- Claim C3 (counterexample): with `max_size = 5`, the text "ab. cdefgh"
produces the chunk "cdefgh" of length 6 > 5.  That chunk is an oversized
sentence that arrived while the accumulation buffer was non-empty, so it was
emitted whole — not hard-split into slices of exactly 5. -/
theorem split_chunks_bound_cex :
    split_text_into_chunks "ab. cdefgh".data 5 = ["ab".data, "cdefgh".data] ∧
    ∃ c ∈ split_text_into_chunks "ab. cdefgh".data 5, 5 < c.length := by
  decide

/-- Claim C3 (amended): every chunk either has length at most `N`, or is the
strip of a whole sentence candidate (an oversized sentence emitted whole when
it arrives with a non-empty buffer).  Hard-split slices and every chunk built
by greedy accumulation are within the bound; only whole oversized sentences
escape it. -/
theorem split_chunks_bound_amended (text : List Char) (N : Nat) (hN : 0 < N) :
    ∀ c ∈ split_text_into_chunks text N,
      c.length ≤ N ∨ ∃ s ∈ pySplitSentences text, c = pyStrip s := by
  intro c hc
  unfold split_text_into_chunks at hc
  have hfold := chunk_bound_fold N hN (pySplitSentences text) (pySplitSentences text)
    [] [] (fun s hs => hs) (by intro c hc2; exact absurd hc2 (by simp)) (Or.inl (by simp))
  by_cases hcur : ((pySplitSentences text).foldl (chunkStep N) ([], [])).2 ≠ []
  · rw [if_pos hcur] at hc
    rcases List.mem_append.mp hc with h | h
    · exact hfold.1 c h
    · rw [List.mem_singleton.mp h]
      rcases hfold.2 with h2 | ⟨s, hsS, hse⟩
      · exact Or.inl (Nat.le_trans (pyStrip_length_le _) h2)
      · exact Or.inr ⟨s, hsS, by rw [hse, pyStrip_idem]⟩
  · rw [if_neg hcur] at hc
    exact hfold.1 c hc

theorem split_chunks_bound_amended_witness :
    ("cdefgh".data.length ≤ 5 ∨
      ∃ s ∈ pySplitSentences "ab. cdefgh".data, "cdefgh".data = pyStrip s) ∧
    "cdefgh".data ∈ split_text_into_chunks "ab. cdefgh".data 5 :=
  ⟨split_chunks_bound_amended "ab. cdefgh".data 5 (by decide) "cdefgh".data (by decide),
   by decide⟩

/-! ### Nonspace-character lemmas (for claim C6) -/

theorem headIsSpace_pyStrip (l : List Char) : headIsSpace (pyStrip l) = false := by
  rcases stripRight_prefix (stripLeft l) with ⟨t, ht⟩
  have h2 : headIsSpace (pyStrip l ++ t) = false := by
    show headIsSpace (stripRight (stripLeft l) ++ t) = false
    rw [← ht]
    exact headIsSpace_stripLeft l
  exact headIsSpace_append_false _ _ h2

theorem headIsSpace_pyStrip_reverse (l : List Char) :
    headIsSpace (pyStrip l).reverse = false := by
  show headIsSpace (stripRight (stripLeft l)).reverse = false
  rw [stripRight_reverse]
  exact headIsSpace_dropWhile _

theorem exists_nonspace_head (l : List Char) (h : headIsSpace l = false)
    (hne : l ≠ []) : ∃ c ∈ l, isPySpace c = false := by
  cases l with
  | nil => exact absurd rfl hne
  | cons c t => exact ⟨c, List.mem_cons_self c t, by simpa [headIsSpace] using h⟩

theorem exists_nonspace_pyStrip (l : List Char) (h : pyStrip l ≠ []) :
    ∃ c ∈ pyStrip l, isPySpace c = false :=
  exists_nonspace_head (pyStrip l) (headIsSpace_pyStrip l) h

theorem mem_stripLeft_of_nonspace (m : List Char) (c : Char) (hc : c ∈ m)
    (hns : isPySpace c = false) : c ∈ stripLeft m := by
  have hsplit : m.takeWhile isPySpace ++ m.dropWhile isPySpace = m := by simp
  rcases List.mem_append.mp (by rw [hsplit]; exact hc :
      c ∈ m.takeWhile isPySpace ++ m.dropWhile isPySpace) with h2 | h2
  · exact absurd (List.mem_takeWhile_imp h2) (by simp [hns])
  · exact h2

theorem mem_stripRight_of_nonspace (m : List Char) (c : Char) (hc : c ∈ m)
    (hns : isPySpace c = false) : c ∈ stripRight m := by
  have h1 : c ∈ m.reverse := List.mem_reverse.mpr hc
  have hsplit : m.reverse.takeWhile isPySpace ++ m.reverse.dropWhile isPySpace =
      m.reverse := by simp
  rcases List.mem_append.mp (by rw [hsplit]; exact h1 :
      c ∈ m.reverse.takeWhile isPySpace ++ m.reverse.dropWhile isPySpace) with h2 | h2
  · exact absurd (List.mem_takeWhile_imp h2) (by simp [hns])
  · have h3 : c ∈ (stripRight m).reverse := by rw [stripRight_reverse]; exact h2
    exact List.mem_reverse.mp h3

theorem pyStrip_ne_nil_of_nonspace (l : List Char)
    (h : ∃ c ∈ l, isPySpace c = false) : pyStrip l ≠ [] := by
  rcases h with ⟨c, hc, hns⟩
  exact List.ne_nil_of_mem
    (mem_stripRight_of_nonspace (stripLeft l) c
      (mem_stripLeft_of_nonspace l c hc hns) hns)

theorem exists_nonspace_suffix (s r : List Char) (hr : r ≠ [])
    (hsuf : ∃ t, t ++ r = s) (hlast : headIsSpace s.reverse = false) :
    ∃ c ∈ r, isPySpace c = false := by
  rcases hsuf with ⟨t, ht⟩
  have hrev : s.reverse = r.reverse ++ t.reverse := by
    rw [← ht, List.reverse_append]
  rw [hrev] at hlast
  have h2 : headIsSpace r.reverse = false :=
    headIsSpace_append_false _ _ hlast
  rcases exists_nonspace_head r.reverse h2 (by simpa using hr) with ⟨c, hc, hns⟩
  exact ⟨c, List.mem_reverse.mp hc, hns⟩

theorem stripLeft_eq_self_of_length (l : List Char)
    (h : (stripLeft l).length = l.length) : stripLeft l = l := by
  cases l with
  | nil => rfl
  | cons c rest =>
    by_cases hc : isPySpace c = true
    · exfalso
      have h1 : stripLeft (c :: rest) = stripLeft rest := by
        simp [stripLeft, List.dropWhile_cons_of_pos hc]
      rw [h1] at h
      have h2 : (stripLeft rest).length ≤ rest.length :=
        (List.dropWhile_sublist isPySpace).length_le
      simp only [List.length_cons] at h
      omega
    · simp [stripLeft, List.dropWhile_cons_of_neg (by simpa using hc)]

theorem stripRight_eq_self_of_strip (l : List Char) (h : pyStrip l = l) :
    stripRight l = l := by
  have h1 : (stripLeft l).length ≤ l.length :=
    (List.dropWhile_sublist isPySpace).length_le
  have h2 : (pyStrip l).length ≤ (stripLeft l).length := by
    show (stripRight (stripLeft l)).length ≤ (stripLeft l).length
    have h3 := congrArg List.length (stripRight_reverse (stripLeft l))
    simp only [List.length_reverse] at h3
    rw [h3]
    have := (List.dropWhile_sublist (l := (stripLeft l).reverse) isPySpace).length_le
    simpa using this
  have h4 : (pyStrip l).length = l.length := by rw [h]
  have h5 : stripLeft l = l := stripLeft_eq_self_of_length l (by omega)
  show stripRight l = l
  calc stripRight l = stripRight (stripLeft l) := by rw [h5]
    _ = pyStrip l := rfl
    _ = l := h

theorem last_nonspace_of_stripped (text : List Char) (h : pyStrip text = text) :
    headIsSpace text.reverse = false := by
  rw [← h]
  exact headIsSpace_pyStrip_reverse text

/-! ### joinDot and keptOf lemmas (for claim C6) -/

theorem joinDot_append_single :
    ∀ (cg : List (List Char)) (s : List Char), cg ≠ [] →
    joinDot (cg ++ [s]) = joinDot cg ++ '.' :: ' ' :: s := by
  intro cg
  induction cg with
  | nil => intro s h; exact absurd rfl h
  | cons x cg ih =>
    intro s _
    cases cg with
    | nil => rfl
    | cons y cg2 =>
      have h2 := ih s (by simp)
      calc joinDot ((x :: y :: cg2) ++ [s])
          = x ++ '.' :: ' ' :: joinDot ((y :: cg2) ++ [s]) := by rfl
        _ = x ++ '.' :: ' ' :: (joinDot (y :: cg2) ++ '.' :: ' ' :: s) := by rw [h2]
        _ = (x ++ '.' :: ' ' :: joinDot (y :: cg2)) ++ '.' :: ' ' :: s := by simp
        _ = joinDot (x :: y :: cg2) ++ '.' :: ' ' :: s := by rfl

theorem joinDot_ne_nil (cg : List (List Char)) (h : cg ≠ [])
    (hp : ∀ p ∈ cg, p ≠ []) : joinDot cg ≠ [] := by
  cases cg with
  | nil => exact absurd rfl h
  | cons x cg2 =>
    cases cg2 with
    | nil => exact hp x (by simp)
    | cons y cg3 =>
      show x ++ '.' :: ' ' :: joinDot (y :: cg3) ≠ []
      simp

theorem flatten_map_singleton (l : List (List Char)) :
    (l.map (fun x => [x])).flatten = l := by
  induction l with
  | nil => rfl
  | cons x l ih => simp [ih]

theorem keptOf_nil : keptOf [] = [] := rfl

theorem keptOf_cons (s : List Char) (l : List (List Char)) :
    keptOf (s :: l) =
      (if pyStrip s = [] then [] else [pyStrip s]) ++ keptOf l := by
  by_cases h : pyStrip s = []
  · simp [keptOf, h]
  · rw [if_neg h]
    simp only [keptOf, List.map_cons]
    rw [List.filter_cons_of_pos (by simpa using h)]
    rfl

theorem forall₂_snoc {R : List Char → List (List Char) → Prop}
    (l1 : List (List Char)) (l2 : List (List (List Char)))
    (a : List Char) (b : List (List Char))
    (h : List.Forall₂ R l1 l2) (hab : R a b) :
    List.Forall₂ R (l1 ++ [a]) (l2 ++ [b]) :=
  List.rel_append h (List.Forall₂.cons hab List.Forall₂.nil)

/-- If the text ends in a non-whitespace character, some piece of the
sentence split contains a non-whitespace character (the separator consumes a
trailing whitespace, so the last character lands inside a piece). -/
theorem splitAux_exists_nonspace :
    ∀ (l : List Char) (skip : Bool) (acc run : List Char) (c : Char),
    l.getLast? = some c → isPySpace c = false →
    ∃ p ∈ splitSentencesAux skip l acc run, ∃ d ∈ p, isPySpace d = false := by
  intro l
  induction l with
  | nil =>
    intro skip acc run c hlast _
    exact absurd hlast (by simp)
  | cons c0 rest ih =>
    intro skip acc run c hlast hns
    cases rest with
    | nil =>
      have hc0 : c0 = c := by
        simpa using hlast
      subst hc0
      by_cases ht : isTerm c0 = true
      · rw [show splitSentencesAux skip [c0] acc run =
            [((c0 :: run) ++ acc).reverse] from by
          simp [splitSentencesAux, hns, ht]]
        exact ⟨((c0 :: run) ++ acc).reverse, by simp,
          c0, by simp, hns⟩
      · rw [show splitSentencesAux skip [c0] acc run =
            [([] ++ (c0 :: (run ++ acc))).reverse] from by
          simp [splitSentencesAux, hns, ht]]
        exact ⟨([] ++ (c0 :: (run ++ acc))).reverse, by simp,
          c0, by simp, hns⟩
    | cons d rest2 =>
      have hlast2 : (d :: rest2).getLast? = some c := by
        rw [← List.getLast?_cons_cons]
        exact hlast
      simp only [splitSentencesAux]
      by_cases h1 : (skip && isPySpace c0) = true
      · rw [if_pos h1]
        exact ih true acc run c hlast2 hns
      · rw [if_neg h1]
        by_cases h2 : isTerm c0 = true
        · rw [if_pos h2]
          exact ih false acc (c0 :: run) c hlast2 hns
        · rw [if_neg h2]
          by_cases h3 : (decide (run ≠ []) && isPySpace c0) = true
          · rw [if_pos h3]
            rcases ih true [] [] c hlast2 hns with ⟨p, hp, hd⟩
            exact ⟨p, List.mem_cons_of_mem _ hp, hd⟩
          · rw [if_neg h3]
            exact ih false (c0 :: (run ++ acc)) [] c hlast2 hns

theorem keptOf_ne_nil (text : List Char) (hne : text ≠ [])
    (hstr : pyStrip text = text) : keptOf (pySplitSentences text) ≠ [] := by
  have hlast : headIsSpace text.reverse = false := last_nonspace_of_stripped text hstr
  have hrevne : text.reverse ≠ [] := by simpa using hne
  obtain ⟨c, t, hct⟩ := List.exists_cons_of_ne_nil hrevne
  have hcl : text.getLast? = some c := by
    rw [List.getLast?_eq_head?_reverse, hct]
    rfl
  have hcns : isPySpace c = false := by
    rw [hct] at hlast
    simpa [headIsSpace] using hlast
  rcases splitAux_exists_nonspace text false [] [] c hcl hcns with ⟨p, hp, hd⟩
  have hpne : pyStrip p ≠ [] := pyStrip_ne_nil_of_nonspace p hd
  have hmem : pyStrip p ∈ keptOf (pySplitSentences text) := by
    simp only [keptOf, List.mem_filter]
    exact ⟨List.mem_map_of_mem pyStrip hp, by simpa using hpne⟩
  exact List.ne_nil_of_mem hmem

/-! ### Claim C6: the chunk-loop invariant -/

theorem chunkInv_step (N : Nat) (hN : 0 < N) (K : List (List Char))
    (st : List (List Char) × List Char) (s0 : List Char)
    (h : ChunkInv K st) : ChunkInv (K ++ keptOf [s0]) (chunkStep N st s0) := by
  by_cases hemp : pyStrip s0 = []
  · rw [show chunkStep N st s0 = st from by simp [chunkStep, hemp]]
    rw [show K ++ keptOf [s0] = K from by simp [keptOf_cons, hemp, keptOf_nil]]
    exact h
  · have hK : K ++ keptOf [s0] = K ++ [pyStrip s0] := by
      rw [keptOf_cons, if_neg hemp, keptOf_nil, List.append_nil]
    rw [hK]
    obtain ⟨hchne, hcurns, hstart, g, cg, sl, hf2, hcurj, hgne, hcgne, hiff, hsl,
      hslK, hslne⟩ := h
    have hsent_first : ∃ c ∈ pyStrip s0, isPySpace c = false :=
      exists_nonspace_pyStrip s0 hemp
    by_cases hover : st.2.length + (pyStrip s0).length + 2 > N
    · by_cases hcne : st.2 ≠ []
      · -- flush the current chunk, start a new one with this sentence
        rw [show chunkStep N st s0 = (st.1 ++ [pyStrip st.2], pyStrip s0) from by
          simp only [chunkStep]
          rw [if_neg hemp, if_pos hover, if_pos hcne]]
        have hcur_ns : ∃ c ∈ st.2, isPySpace c = false := by
          rcases hcurns with h | h
          · exact absurd h hcne
          · exact h
        have hpstrip_ne : pyStrip st.2 ≠ [] := pyStrip_ne_nil_of_nonspace st.2 hcur_ns
        have hcgne2 : cg ≠ [] := fun hcg => hcne (hiff.mpr hcg)
        refine ⟨?_, Or.inr hsent_first, fun _ => Or.inl (by simp),
          g ++ [cg], [pyStrip s0], sl ++ [[pyStrip s0]],
          forall₂_snoc _ _ _ _ hf2 (Or.inr (by rw [hcurj])), rfl, ?_, ?_, ?_, ?_, ?_, ?_⟩
        · intro c hc
          rcases List.mem_append.mp hc with h | h
          · exact hchne c h
          · rw [List.mem_singleton.mp h]; exact hpstrip_ne
        · intro gi hgi
          rcases List.mem_append.mp hgi with h | h
          · exact hgne gi h
          · rw [List.mem_singleton.mp h]; exact ⟨hcgne2, hcgne⟩
        · intro p hp
          rw [List.mem_singleton.mp hp]; exact hemp
        · exact ⟨fun h => absurd h hemp, fun h => absurd h (by simp)⟩
        · simp [List.flatten_append, hsl, List.append_assoc]
        · simp only [List.map_append, hslK, List.map_cons, List.map_nil,
            List.flatten_cons, List.flatten_nil, List.append_nil]
        · intro x hx
          rcases List.mem_append.mp hx with h | h
          · exact hslne x h
          · rw [List.mem_singleton.mp h]; simp
      · -- empty buffer: hard-split the oversized sentence
        have hcure : st.2 = [] := by
          by_contra hc; exact hcne hc
        rw [show chunkStep N st s0 =
            (st.1 ++ (hardSplit N (pyStrip s0)).1, (hardSplit N (pyStrip s0)).2) from by
          simp only [chunkStep]
          rw [if_neg hemp, if_pos hover, if_neg hcne]]
        have hrem_ne : (hardSplit N (pyStrip s0)).2 ≠ [] := hardSplit_rem_ne N hN _ hemp
        have hrem_ns : ∃ c ∈ (hardSplit N (pyStrip s0)).2, isPySpace c = false := by
          apply exists_nonspace_suffix (pyStrip s0) _ hrem_ne
            (hardSplit_rem_suffix N hN _)
          exact headIsSpace_pyStrip_reverse s0
        have hslice_len : ∀ x ∈ (hardSplit N (pyStrip s0)).1, x.length = N :=
          hardSplit_slices_len N hN _
        have hslice_ne : ∀ x ∈ (hardSplit N (pyStrip s0)).1, x ≠ [] := by
          intro x hx hxe
          have hxl := hslice_len x hx
          rw [hxe] at hxl
          simp only [List.length_nil] at hxl
          omega
        have hcge : cg = [] := hiff.mp hcure
        refine ⟨?_, Or.inr hrem_ns, fun _ => Or.inr hrem_ne,
          g ++ (hardSplit N (pyStrip s0)).1.map (fun x => [x]),
          [(hardSplit N (pyStrip s0)).2],
          sl ++ [(hardSplit N (pyStrip s0)).1 ++ [(hardSplit N (pyStrip s0)).2]],
          ?_, rfl, ?_, ?_, ?_, ?_, ?_, ?_⟩
        · intro c hc
          rcases List.mem_append.mp hc with h | h
          · exact hchne c h
          · exact hslice_ne c h
        · apply List.rel_append hf2
          rw [List.forall₂_map_right_iff]
          apply List.forall₂_same.mpr
          intro x _
          exact Or.inl rfl
        · intro gi hgi
          rcases List.mem_append.mp hgi with h | h
          · exact hgne gi h
          · rcases List.mem_map.mp h with ⟨x, hx, rfl⟩
            exact ⟨by simp, by
              intro p hp
              rw [List.mem_singleton.mp hp]
              exact hslice_ne x hx⟩
        · intro p hp
          rw [List.mem_singleton.mp hp]; exact hrem_ne
        · exact ⟨fun h => absurd h hrem_ne, fun h => absurd h (by simp)⟩
        · simp [List.flatten_append, hsl, hcge, flatten_map_singleton,
            List.append_assoc]
        · simp only [List.map_append, hslK, List.map_cons, List.map_nil]
          rw [show ((hardSplit N (pyStrip s0)).1 ++
              [(hardSplit N (pyStrip s0)).2]).flatten = pyStrip s0 from by
            rw [List.flatten_append]
            simp only [List.flatten_cons, List.flatten_nil, List.append_nil]
            exact hardSplit_flatten N hN _]
        · intro x hx
          rcases List.mem_append.mp hx with h | h
          · exact hslne x h
          · rw [List.mem_singleton.mp h]; simp
    · -- the sentence fits: append it to the buffer
      rw [show chunkStep N st s0 =
          (st.1, if st.2 = [] then pyStrip s0
            else st.2 ++ '.' :: ' ' :: pyStrip s0) from by
        simp only [chunkStep]
        rw [if_neg hemp, if_neg hover]]
      by_cases hcure : st.2 = []
      · have hcge : cg = [] := hiff.mp hcure
        rw [if_pos hcure]
        refine ⟨hchne, Or.inr hsent_first, fun _ => Or.inr hemp,
          g, [pyStrip s0], sl ++ [[pyStrip s0]], hf2, rfl, hgne, ?_, ?_, ?_, ?_, ?_⟩
        · intro p hp
          rw [List.mem_singleton.mp hp]; exact hemp
        · exact ⟨fun h => absurd h hemp, fun h => absurd h (by simp)⟩
        · simp [List.flatten_append, hsl, hcge]
        · simp only [List.map_append, hslK, List.map_cons, List.map_nil,
            List.flatten_cons, List.flatten_nil, List.append_nil]
        · intro x hx
          rcases List.mem_append.mp hx with h | h
          · exact hslne x h
          · rw [List.mem_singleton.mp h]; simp
      · have hcgne2 : cg ≠ [] := fun hcg => hcure (hiff.mpr hcg)
        rw [if_neg hcure]
        have hjoin : st.2 ++ '.' :: ' ' :: pyStrip s0 = joinDot (cg ++ [pyStrip s0]) := by
          rw [joinDot_append_single cg (pyStrip s0) hcgne2, hcurj]
        have hcur2ne : st.2 ++ '.' :: ' ' :: pyStrip s0 ≠ [] := by simp
        refine ⟨hchne, ?_, fun _ => Or.inr hcur2ne,
          g, cg ++ [pyStrip s0], sl ++ [[pyStrip s0]], hf2, hjoin, hgne, ?_, ?_, ?_, ?_, ?_⟩
        · right
          rcases hcurns with h | h
          · exact absurd h hcure
          · rcases h with ⟨c, hc, hns⟩
            exact ⟨c, List.mem_append.mpr (Or.inl hc), hns⟩
        · intro p hp
          rcases List.mem_append.mp hp with h | h
          · exact hcgne p h
          · rw [List.mem_singleton.mp h]; exact hemp
        · exact ⟨fun h => absurd h hcur2ne, fun h => absurd h (by simp)⟩
        · simp [List.flatten_append, hsl, List.append_assoc]
        · simp only [List.map_append, hslK, List.map_cons, List.map_nil,
            List.flatten_cons, List.flatten_nil, List.append_nil]
        · intro x hx
          rcases List.mem_append.mp hx with h | h
          · exact hslne x h
          · rw [List.mem_singleton.mp h]; simp

theorem chunkInv_fold (N : Nat) (hN : 0 < N) :
    ∀ (sents : List (List Char)) (K : List (List Char))
      (st : List (List Char) × List Char),
    ChunkInv K st → ChunkInv (K ++ keptOf sents) (sents.foldl (chunkStep N) st) := by
  intro sents
  induction sents with
  | nil => intro K st h; simpa [keptOf_nil] using h
  | cons s0 sents ih =>
    intro K st h
    simp only [List.foldl_cons]
    have hres := ih (K ++ keptOf [s0]) (chunkStep N st s0) (chunkInv_step N hN K st s0 h)
    rw [show K ++ keptOf (s0 :: sents) = (K ++ keptOf [s0]) ++ keptOf sents from by
      rw [keptOf_cons s0 sents, keptOf_cons s0 [], keptOf_nil, List.append_nil,
        List.append_assoc]]
    exact hres

theorem chunkInv_init : ChunkInv [] ([], []) :=
  ⟨fun c hc => absurd hc (List.not_mem_nil c),
   Or.inl rfl,
   fun h => absurd rfl h,
   [], [], [],
   List.Forall₂.nil, rfl,
   fun gi hgi => absurd hgi (List.not_mem_nil gi),
   fun p hp => absurd hp (List.not_mem_nil p),
   ⟨fun _ => rfl, fun _ => rfl⟩,
   rfl,
   rfl,
   fun x hx => absurd hx (List.not_mem_nil x)⟩

/-- Claim C6: for a non-empty stripped (normalized) text and any positive
`max_size`, `split_text_into_chunks` returns at least one chunk, none of the
chunks is the empty string, and the chunks preserve text order: each chunk is
the ". "-join (possibly stripped) of a consecutive group of pieces, and the
concatenation of all pieces in order reassembles exactly the non-empty
stripped sentence candidates of the text, in their original order. -/
theorem split_chunks_invariants (text : List Char) (N : Nat) (hN : 0 < N)
    (hne : text ≠ []) (hstr : pyStrip text = text) :
    split_text_into_chunks text N ≠ [] ∧
    (∀ c ∈ split_text_into_chunks text N, c ≠ []) ∧
    ∃ g : List (List (List Char)),
      List.Forall₂ chunkRel (split_text_into_chunks text N) g ∧
      (∀ gi ∈ g, gi ≠ []) ∧
      Reassembles g.flatten (keptOf (pySplitSentences text)) := by
  have hinv := chunkInv_fold N hN (pySplitSentences text) [] ([], []) chunkInv_init
  rw [List.nil_append] at hinv
  obtain ⟨hchne, hcurns, hstart, g, cg, sl, hf2, hcurj, hgne, hcgne, hiff, hsl,
    hslK, hslne⟩ := hinv
  have hKne : keptOf (pySplitSentences text) ≠ [] := keptOf_ne_nil text hne hstr
  by_cases hcur : ((pySplitSentences text).foldl (chunkStep N) ([], [])).2 ≠ []
  · have hsplit_eq : split_text_into_chunks text N =
        ((pySplitSentences text).foldl (chunkStep N) ([], [])).1 ++
          [pyStrip ((pySplitSentences text).foldl (chunkStep N) ([], [])).2] := by
      unfold split_text_into_chunks
      rw [if_pos hcur]
    have hcur_ns : ∃ c ∈ ((pySplitSentences text).foldl (chunkStep N) ([], [])).2,
        isPySpace c = false := by
      rcases hcurns with h | h
      · exact absurd h hcur
      · exact h
    have hcgne2 : cg ≠ [] := fun hcg => hcur (hiff.mpr hcg)
    rw [hsplit_eq]
    refine ⟨by simp, ?_, g ++ [cg],
      forall₂_snoc _ _ _ _ hf2 (Or.inr (by rw [hcurj])), ?_, sl, ?_, hslK, hslne⟩
    · intro c hc
      rcases List.mem_append.mp hc with h | h
      · exact hchne c h
      · rw [List.mem_singleton.mp h]
        exact pyStrip_ne_nil_of_nonspace _ hcur_ns
    · intro gi hgi
      rcases List.mem_append.mp hgi with h | h
      · exact (hgne gi h).1
      · rw [List.mem_singleton.mp h]; exact hcgne2
    · simp [List.flatten_append, hsl]
  · have hcur2 : ((pySplitSentences text).foldl (chunkStep N) ([], [])).2 = [] := by
      by_contra hc; exact hcur hc
    have hsplit_eq : split_text_into_chunks text N =
        ((pySplitSentences text).foldl (chunkStep N) ([], [])).1 := by
      unfold split_text_into_chunks
      rw [if_neg hcur]
    have hcge : cg = [] := hiff.mp hcur2
    rw [hsplit_eq]
    refine ⟨?_, hchne, g, hf2, fun gi hgi => (hgne gi hgi).1, sl, ?_, hslK, hslne⟩
    · rcases hstart hKne with h | h
      · exact h
      · exact absurd h hcur
    · rw [hsl, hcge, List.append_nil]

theorem split_chunks_invariants_witness :
    split_text_into_chunks "ab. cd".data 4 ≠ [] ∧
    (∀ c ∈ split_text_into_chunks "ab. cd".data 4, c ≠ []) ∧
    ∃ g : List (List (List Char)),
      List.Forall₂ chunkRel (split_text_into_chunks "ab. cd".data 4) g ∧
      (∀ gi ∈ g, gi ≠ []) ∧
      Reassembles g.flatten (keptOf (pySplitSentences "ab. cd".data)) :=
  split_chunks_invariants "ab. cd".data 4 (by decide) (by decide) (by decide)

end TTSModel
